/-
Verification of the eng-nonce-words stimulus pipeline.

The development shallowly embeds the two scripts of the repository:

* `generate.py` — phoneme inventories, the `Monosyllable` / `Disyllable`
  data model, the syllable-contact classifier, the phonotactic enumerators
  `_monosyllables` / `_disyllables`, and the filtering loop of `main`
  (phonological tests, lexical-collision check, rejection counting and
  logging).
* `stratify.py` — composite-key extraction (`_proc_file`), grouping,
  the per-shape quota table, the size assertion, `_chunks`, round-robin
  chunk assignment, the final per-list shuffles and the length-60
  assertion.

Python's global `random` generator (seeded once with `SEED`) is modelled
as an explicitly threaded deterministic pseudo-random state; the proofs
only use that a shuffle is a deterministic permutation of its input,
which holds for the real generator as well.
-/
import Mathlib

set_option maxRecDepth 4000

namespace NonceWords

/-! ## Phoneme inventories (generate.py, module-level constants) -/

def VOICELESS_STOPS : List String := ["p", "t", "k"]

def VOICED_STOPS : List String := ["b", "d", "g"]

def STOPS : List String := VOICELESS_STOPS ++ VOICED_STOPS

def STOPS_PLUS_S : List String := STOPS ++ ["s"]

def LIQUID : List String := ["l", "r"]

def NASALS : List String := ["m", "n"]

def SIMPLE_ONSETS : List String := STOPS ++ NASALS

def SIMPLE_ONSETS_PLUS_S : List String := STOPS ++ NASALS ++ ["s"]

def TENSE_NUCLEI : List String := ["iː", "uː", "eɪ", "oʊ", "ɑ", "aɪ", "aʊ"]

def LAX_NUCLEI : List String := ["ɪ", "ʊ", "ɛ", "æ"]

def NUCLEI : List String := TENSE_NUCLEI ++ LAX_NUCLEI

def NASAL_CODAS : List String := ["m", "n", "ŋ"]

def STOP_CODAS : List String := ["p", "t", "k"]

def SIMPLE_CODAS : List String := NASAL_CODAS ++ STOP_CODAS

def SIMPLE_CODAS_PLUS_S : List String := SIMPLE_CODAS ++ ["s"]

/-- The `PLACE` dict of generate.py; `none` models a `KeyError`. -/
def PLACE (s : String) : Option String :=
  if s = "p" then some "labial"
  else if s = "t" then some "coronal"
  else if s = "k" then some "velar"
  else if s = "b" then some "labial"
  else if s = "d" then some "coronal"
  else if s = "g" then some "velar"
  else if s = "s" then some "coronal"
  else if s = "m" then some "labial"
  else if s = "n" then some "coronal"
  else if s = "ŋ" then some "velar"
  else none

/-! ## Syllable data model (generate.py, `Monosyllable` / `Disyllable`) -/

structure Monosyllable where
  onset : String
  nucleus : String
  coda : String
  shape : String
deriving DecidableEq, Repr

def Monosyllable.transcription (m : Monosyllable) : String :=
  m.onset ++ m.nucleus ++ m.coda

/-- `Monosyllable.line`: the TSV row emitted for a monosyllable. -/
def Monosyllable.line (m : Monosyllable) : List String :=
  [m.onset, m.nucleus, m.coda, "", "", "", m.shape, "", m.transcription]

structure Disyllable where
  syl1 : Monosyllable
  syl2 : Monosyllable
deriving DecidableEq, Repr

def Disyllable.shape (d : Disyllable) : String :=
  d.syl1.shape ++ "." ++ d.syl2.shape

/-- `Disyllable.syllable_contact_code`.  The source indexes the `PLACE`
dict directly (a `KeyError` aborts the run); `none` models that case. -/
def Disyllable.syllable_contact_code (d : Disyllable) : Option String :=
  let coda := d.syl1.coda
  let onset := d.syl2.onset
  if coda ∈ NASAL_CODAS then
    match PLACE coda, PLACE onset with
    | some pc, some po => some (if pc = po then "+NPA" else "-NPA")
    | _, _ => none
  else
    let coda_coding := coda = "s" ∨ coda ∈ VOICELESS_STOPS
    let onset_coding := onset = "s" ∨ onset ∈ VOICELESS_STOPS
    some (if (coda_coding ↔ onset_coding) then "+OVA" else "-OVA")

def Disyllable.transcription (d : Disyllable) : String :=
  d.syl1.transcription ++ d.syl2.transcription

/-- `Disyllable.line`: the TSV row emitted for a disyllable.  The
syllable-contact-code column holds the classifier's value (the run has
aborted before writing when the classifier raises, so `""` stands for the
unreachable `none` case). -/
def Disyllable.line (d : Disyllable) : List String :=
  [d.syl1.onset, d.syl1.nucleus, d.syl1.coda,
   d.syl2.onset, d.syl2.nucleus, d.syl2.coda,
   d.shape, (d.syllable_contact_code).getD "", d.transcription]

/-! ## Phonological tests (generate.py, `_borowsky_test` / `_npa_test`) -/

def borowsky_test (m : Monosyllable) : Bool :=
  decide (m.nucleus ∈ TENSE_NUCLEI) && (m.coda == "ŋ")

def npa_test (d : Disyllable) : Bool :=
  (d.syl1.coda == "n") && decide (d.syl2.onset ∈ (["k", "g"] : List String))

/-! ## Phonotactic enumerators (generate.py, `_monosyllables` / `_disyllables`)

The Python generators are materialized as lists, in yield order; each
`continue` guard becomes an `if … then [] else …`. -/

def cvcMonosyllables : List Monosyllable :=
  SIMPLE_ONSETS_PLUS_S.flatMap fun onset =>
    NUCLEI.flatMap fun nucleus =>
      SIMPLE_CODAS_PLUS_S.flatMap fun coda =>
        if onset = coda then [] else [⟨onset, nucleus, coda, "CVC"⟩]

def scvcMonosyllables : List Monosyllable :=
  VOICELESS_STOPS.flatMap fun stop =>
    NUCLEI.flatMap fun nucleus =>
      SIMPLE_CODAS.flatMap fun coda =>
        if stop = coda then [] else [⟨"s" ++ stop, nucleus, coda, "sCVC"⟩]

def cwvcMonosyllables : List Monosyllable :=
  STOPS.flatMap fun stop =>
    LAX_NUCLEI.flatMap fun nucleus =>
      SIMPLE_CODAS_PLUS_S.flatMap fun coda =>
        if stop = coda then [] else [⟨stop ++ "w", nucleus, coda, "CwVC"⟩]

def tLiquidMonosyllables : List Monosyllable :=
  (["t", "d"] : List String).flatMap fun stop =>
    NUCLEI.flatMap fun nucleus =>
      SIMPLE_CODAS_PLUS_S.flatMap fun coda =>
        if stop = coda then []
        else [⟨stop ++ "l", nucleus, coda, "TlVC"⟩,
              ⟨stop ++ "ɹ", nucleus, coda, "TɹVC"⟩]

def nasalClusterMonosyllables : List Monosyllable :=
  STOPS.flatMap fun stop =>
    STOP_CODAS.flatMap fun coda =>
      if stop = coda then []
      else
        NASALS.flatMap fun nasal =>
          NUCLEI.flatMap fun nucleus =>
            [⟨stop ++ nasal, nucleus, coda, "CNVC"⟩,
             ⟨nasal ++ stop, nucleus, coda, "NCVC"⟩]

/-- `_monosyllables`, materialized in yield order. -/
def monosyllables : List Monosyllable :=
  cvcMonosyllables ++ scvcMonosyllables ++ cwvcMonosyllables ++
    tLiquidMonosyllables ++ nasalClusterMonosyllables

/-- `itertools.permutations(l, 2)`: every ordered pair of distinct
positions, first component outermost, in list order. -/
def permPairs (l : List String) : List (String × String) :=
  l.flatMap fun a => (l.filter fun b => b ≠ a).map fun b => (a, b)

def cvccvcDisyllables (nucleus1 nucleus2 : String) : List Disyllable :=
  SIMPLE_ONSETS_PLUS_S.flatMap fun onset1 =>
    SIMPLE_CODAS_PLUS_S.flatMap fun coda1 =>
      if onset1 = coda1 then []
      else
        STOPS_PLUS_S.flatMap fun onset2 =>
          if onset1 = onset2 ∨ coda1 = onset2 then []
          else
            SIMPLE_CODAS_PLUS_S.flatMap fun coda2 =>
              if coda1 = coda2 then []
              else [⟨⟨onset1, nucleus1, coda1, "CVC"⟩,
                     ⟨onset2, nucleus2, coda2, "CVC"⟩⟩]

def tLiquidCvcDisyllables (nucleus1 nucleus2 : String) : List Disyllable :=
  (["t", "d"] : List String).flatMap fun stop1 =>
    SIMPLE_CODAS_PLUS_S.flatMap fun coda1 =>
      if stop1 = coda1 then []
      else
        STOPS_PLUS_S.flatMap fun onset2 =>
          if stop1 = onset2 ∨ coda1 = onset2 then []
          else
            SIMPLE_CODAS_PLUS_S.flatMap fun coda2 =>
              if coda1 = coda2 then []
              else [⟨⟨stop1 ++ "l", nucleus1, coda1, "TlVC"⟩,
                     ⟨onset2, nucleus2, coda2, "CVC"⟩⟩,
                    ⟨⟨stop1 ++ "ɹ", nucleus1, coda1, "TɹVC"⟩,
                     ⟨onset2, nucleus2, coda2, "CVC"⟩⟩]

/-- `_disyllables`, materialized in yield order. -/
def disyllables : List Disyllable :=
  (permPairs LAX_NUCLEI).flatMap fun p =>
    cvccvcDisyllables p.1 p.2 ++ tLiquidCvcDisyllables p.1 p.2

/-! ## The filtering loops of generate.py's `main`

The lexicon is the set of (separator-normalized) pronunciation strings,
given by its characteristic function.  Each loop returns the rows written
to the TSV sink, the final value of the `filtered` counter, and the
messages passed to `logging.info` for rejected candidates, in order. -/

/-- The monosyllable loop of `main`: skip on `_borowsky_test` (no count,
no log), then count and log lexical collisions, else write the row. -/
def processMonosyllables (lexicon : String → Bool) :
    List Monosyllable → List (List String) × Nat × List String
  | [] => ([], 0, [])
  | e :: rest =>
    if borowsky_test e then processMonosyllables lexicon rest
    else if lexicon e.transcription then
      let (rows, filtered, log) := processMonosyllables lexicon rest
      (rows, filtered + 1, (e.transcription ++ " is lexical") :: log)
    else
      let (rows, filtered, log) := processMonosyllables lexicon rest
      (e.line :: rows, filtered, log)

/-- The per-candidate keep-condition of the monosyllable loop. -/
def monoKeep (lexicon : String → Bool) (e : Monosyllable) : Bool :=
  !borowsky_test e && !lexicon e.transcription

/-- The disyllable loop of `main`: skip on `_npa_test` (no count, no
log), then count and log when any of syl1, syl2 or the whole
transcription is lexical, else write the row. -/
def processDisyllables (lexicon : String → Bool) :
    List Disyllable → List (List String) × Nat × List String
  | [] => ([], 0, [])
  | e :: rest =>
    if npa_test e then processDisyllables lexicon rest
    else if lexicon e.syl1.transcription || lexicon e.syl2.transcription
        || lexicon e.transcription then
      let (rows, filtered, log) := processDisyllables lexicon rest
      (rows, filtered + 1,
       (e.transcription ++ " or subsyllable is lexical") :: log)
    else
      let (rows, filtered, log) := processDisyllables lexicon rest
      (e.line :: rows, filtered, log)

/-- The per-candidate keep-condition of the disyllable loop. -/
def disyllableKeep (lexicon : String → Bool) (e : Disyllable) : Bool :=
  !npa_test e &&
    !(lexicon e.syl1.transcription || lexicon e.syl2.transcription
      || lexicon e.transcription)

/-- The surviving monosyllable candidates of a run over `entries`. -/
def filterMonosyllables (lexicon : String → Bool)
    (entries : List Monosyllable) : List Monosyllable :=
  entries.filter (monoKeep lexicon)

/-- The surviving disyllable candidates of a run over `entries`. -/
def filterDisyllables (lexicon : String → Bool)
    (entries : List Disyllable) : List Disyllable :=
  entries.filter (disyllableKeep lexicon)

/-! ## stratify.py -/

def SEED : Nat := 1568

def N_LISTS : Nat := 16

/-- An input record of stratify.py: one TSV row with the nine columns of
`COLUMNS` (the partitioner only reads `shape` and
`syllable.contact.code`, the rest is carried along untouched). -/
structure Row where
  onset1 : String
  nucleus1 : String
  coda1 : String
  onset2 : String
  nucleus2 : String
  coda2 : String
  shape : String
  scc : String
  transcription : String
deriving DecidableEq, Repr

/-- Composite-key extraction of `_proc_file`: the shape, extended with
`", <code>"` when the syllable-contact-code field is non-empty. -/
def rowKey (r : Row) : String :=
  if r.scc ≠ "" then r.shape ++ ", " ++ r.scc else r.shape

/-- The quota table: the `if shape == …: size = …` chain of `main`,
with `none` for the `else: continue` branch. -/
def listQuota (shape : String) : Option Nat :=
  if shape = "CVC" then some 5
  else if shape = "sCVC" then some 4
  else if shape = "CwVC" then some 4
  else if shape = "TɹVC" then some 2
  else if shape = "TlVC" then some 5
  else if shape = "NCVC" then some 5
  else if shape = "CNVC" then some 5
  else if shape = "CVC.CVC, +OVA" then some 5
  else if shape = "CVC.CVC, +NPA" then some 4
  else if shape = "TɹVC.CVC, +OVA" then some 3
  else if shape = "TɹVC.CVC, +NPA" then some 3
  else if shape = "CVC.CVC, -OVA" then some 4
  else if shape = "CVC.CVC, -NPA" then some 4
  else if shape = "TlVC.CVC, -OVA" then some 4
  else if shape = "TlVC.CVC, -NPA" then some 3
  else none

/-- The keys of `by_shape` in insertion order (first occurrence),
as produced by the two `_proc_file` passes feeding the defaultdict. -/
def keysIn (rows : List Row) : List String :=
  rows.foldl (fun acc r => if rowKey r ∈ acc then acc else acc ++ [rowKey r]) []

/-- `by_shape[k]`: the rows with composite key `k`, in input order. -/
def groupFor (rows : List Row) (k : String) : List Row :=
  rows.filter fun r => rowKey r = k

/-- One step of the pseudo-random generator, modelled as a linear
congruential generator on an explicit `Nat` state (stratify.py seeds the
global generator once; the claims use only determinism and the
permutation property of shuffling). -/
def rngNext (s : Nat) : Nat × Nat :=
  let s' := (s * 1103515245 + 12345) % 2147483648
  (s', s')

/-- `random.shuffle`, modelled: repeatedly draw an index from the
threaded generator state, move that element to the front, and recurse on
the remainder; returns the shuffled list and the new generator state. -/
def shuffleGo (rng : Nat) (l : List Row) : List Row × Nat :=
  match h : l.length with
  | 0 => (l, rng)
  | n + 1 =>
    let i := (rngNext rng).1 % (n + 1)
    have hi : i < l.length := by
      rw [h]; exact Nat.mod_lt _ (Nat.succ_pos n)
    ((l.get ⟨i, hi⟩) :: (shuffleGo (rngNext rng).2 (l.eraseIdx i)).1,
     (shuffleGo (rngNext rng).2 (l.eraseIdx i)).2)
termination_by l.length
decreasing_by
  all_goals simp only [List.length_eraseIdx, h]
  all_goals have h2 := Nat.mod_lt (rngNext rng).1 (Nat.succ_pos n)
  all_goals split <;> omega

/-- `_chunks(lst, size, chunks)`: the `chunks` slices
`lst[size*c : size*c + size]`. -/
def pyChunks (lst : List Row) (size chunks : Nat) : List (List Row) :=
  (List.range chunks).map fun c => ((lst.drop (size * c)).take size)

/-- The failure modes of stratify.py's two `assert` statements: an
undersized group (surfacing the key and observed size), or a final list
whose length is not 60 (surfacing the length). -/
inductive StratifyError where
  | groupTooSmall (shape : String) (size : Nat)
  | badListLength (len : Nat)
deriving DecidableEq, Repr

/-- The per-shape loop of stratify.py's `main`: for each discovered key
in insertion order, look up the quota (`continue` when undeclared),
assert the group is large enough, shuffle it, and extend list `i` with
chunk `i`.  The generator state is threaded through the shuffles. -/
def processGroups (rows : List Row) (rng : Nat) (lsts : List (List Row)) :
    List String → Except StratifyError (List (List Row) × Nat)
  | [] => .ok (lsts, rng)
  | k :: rest =>
    match listQuota k with
    | none => processGroups rows rng lsts rest
    | some size =>
      let elist := groupFor rows k
      if elist.length < size * N_LISTS then
        .error (.groupTooSmall k elist.length)
      else
        processGroups rows (shuffleGo rng elist).2
          (List.zipWith (· ++ ·) lsts
            (pyChunks (shuffleGo rng elist).1 size N_LISTS)) rest

/-- The final `random.shuffle(lst)` pass over the output lists. -/
def shuffleEach (rng : Nat) : List (List Row) → List (List Row) × Nat
  | [] => ([], rng)
  | l :: rest =>
    ((shuffleGo rng l).1 :: (shuffleEach (shuffleGo rng l).2 rest).1,
     (shuffleEach (shuffleGo rng l).2 rest).2)

/-- stratify.py's `main` on already-read input rows (the monosyllable
file's rows followed by the disyllable file's rows): seed, group by
composite key, distribute quota chunks, shuffle each list, and check the
`len(lst) == 60` assertion before writing. -/
def stratify (seed : Nat) (rows : List Row) :
    Except StratifyError (List (List Row)) :=
  match processGroups rows seed
      (List.replicate N_LISTS ([] : List Row)) (keysIn rows) with
  | .error e => .error e
  | .ok p =>
    match ((shuffleEach p.2 p.1).1).find? (fun l => l.length ≠ 60) with
    | some l => .error (.badListLength l.length)
    | none => .ok (shuffleEach p.2 p.1).1

/-- A full run of the partitioner, with the fixed seed of the source. -/
def stratifyMain (rows : List Row) : Except StratifyError (List (List Row)) :=
  stratify SEED rows

/-! ## Helper lemmas -/

theorem mem_ite_nil {α : Type} {p : Prop} [Decidable p] {l : List α} {a : α} :
    a ∈ (if p then ([] : List α) else l) ↔ ¬p ∧ a ∈ l := by
  split <;> simp_all

theorem ne_of_length_ne {s t : String} (h : s.length ≠ t.length) : s ≠ t :=
  fun he => h (he ▸ rfl)

theorem length_mem_SIMPLE_CODAS_PLUS_S :
    ∀ s ∈ SIMPLE_CODAS_PLUS_S, s.length = 1 := by decide

theorem length_mem_SIMPLE_CODAS : ∀ s ∈ SIMPLE_CODAS, s.length = 1 := by decide

theorem length_mem_STOP_CODAS : ∀ s ∈ STOP_CODAS, s.length = 1 := by decide

theorem length_mem_STOPS_PLUS_S : ∀ s ∈ STOPS_PLUS_S, s.length = 1 := by decide

theorem length_mem_STOPS : ∀ s ∈ STOPS, s.length = 1 := by decide

theorem length_mem_VOICELESS_STOPS :
    ∀ s ∈ VOICELESS_STOPS, s.length = 1 := by decide

theorem length_mem_NASALS : ∀ s ∈ NASALS, s.length = 1 := by decide

theorem length_mem_TD : ∀ s ∈ (["t", "d"] : List String), s.length = 1 := by
  decide

/-- A two-character onset differs from any one-character coda. -/
theorem cluster_ne_single {a b c : String} (ha : a.length = 1)
    (hb : b.length = 1) (hc : c.length = 1) : a ++ b ≠ c := by
  apply ne_of_length_ne
  rw [String.length_append, ha, hb, hc]
  omega

/-! ## C7: every enumerated monosyllable has onset distinct from coda -/

theorem cvc_onset_ne_coda : ∀ m ∈ cvcMonosyllables, m.onset ≠ m.coda := by
  intro m hm
  simp only [cvcMonosyllables, List.mem_flatMap, mem_ite_nil,
    List.mem_singleton] at hm
  obtain ⟨onset, ho, nucleus, hn, coda, hc, hne, rfl⟩ := hm
  exact hne

theorem scvc_onset_ne_coda : ∀ m ∈ scvcMonosyllables, m.onset ≠ m.coda := by
  intro m hm
  simp only [scvcMonosyllables, List.mem_flatMap, mem_ite_nil,
    List.mem_singleton] at hm
  obtain ⟨stop, hs, nucleus, hn, coda, hc, hne, rfl⟩ := hm
  exact cluster_ne_single rfl (length_mem_VOICELESS_STOPS stop hs)
    (length_mem_SIMPLE_CODAS coda hc)

theorem cwvc_onset_ne_coda : ∀ m ∈ cwvcMonosyllables, m.onset ≠ m.coda := by
  intro m hm
  simp only [cwvcMonosyllables, List.mem_flatMap, mem_ite_nil,
    List.mem_singleton] at hm
  obtain ⟨stop, hs, nucleus, hn, coda, hc, hne, rfl⟩ := hm
  exact cluster_ne_single (length_mem_STOPS stop hs) rfl
    (length_mem_SIMPLE_CODAS_PLUS_S coda hc)

theorem tliquid_onset_ne_coda :
    ∀ m ∈ tLiquidMonosyllables, m.onset ≠ m.coda := by
  intro m hm
  simp only [tLiquidMonosyllables, List.mem_flatMap, mem_ite_nil,
    List.mem_cons, List.not_mem_nil, or_false] at hm
  obtain ⟨stop, hs, nucleus, hn, coda, hc, hne, hm | hm⟩ := hm <;> subst hm <;>
    exact cluster_ne_single (by rcases hs with rfl | rfl <;> rfl) rfl
      (length_mem_SIMPLE_CODAS_PLUS_S coda hc)

theorem nasalcluster_onset_ne_coda :
    ∀ m ∈ nasalClusterMonosyllables, m.onset ≠ m.coda := by
  intro m hm
  simp only [nasalClusterMonosyllables, List.mem_flatMap, mem_ite_nil,
    List.mem_cons, List.not_mem_nil, or_false] at hm
  obtain ⟨stop, hs, coda, hc, hne, nasal, hna, nucleus, hn, hm | hm⟩ := hm <;>
      subst hm
  · exact cluster_ne_single (length_mem_STOPS stop hs)
      (length_mem_NASALS nasal hna) (length_mem_STOP_CODAS coda hc)
  · exact cluster_ne_single (length_mem_NASALS nasal hna)
      (length_mem_STOPS stop hs) (length_mem_STOP_CODAS coda hc)

/-- C7: every `Monosyllable` value the enumerator `_monosyllables`
produces, across all seven shape families, has an onset string different
from its coda string. -/
theorem C7_monosyllable_onset_ne_coda :
    ∀ m ∈ monosyllables, m.onset ≠ m.coda := by
  intro m hm
  simp only [monosyllables, List.mem_append] at hm
  rcases hm with (((hm | hm) | hm) | hm) | hm
  · exact cvc_onset_ne_coda m hm
  · exact scvc_onset_ne_coda m hm
  · exact cwvc_onset_ne_coda m hm
  · exact tliquid_onset_ne_coda m hm
  · exact nasalcluster_onset_ne_coda m hm

/-- Witness for C7 at the first enumerated monosyllable. -/
theorem C7_monosyllable_onset_ne_coda_witness :
    (Monosyllable.mk "p" "iː" "m" "CVC").onset ≠
      (Monosyllable.mk "p" "iː" "m" "CVC").coda :=
  C7_monosyllable_onset_ne_coda ⟨"p", "iː", "m", "CVC"⟩ (by decide)

/-! ## Structural facts about the disyllable enumerator -/

theorem permPairs_mem {l : List String} {p : String × String}
    (h : p ∈ permPairs l) : p.1 ∈ l ∧ p.2 ∈ l ∧ p.2 ≠ p.1 := by
  simp only [permPairs, List.mem_flatMap, List.mem_map, List.mem_filter,
    decide_eq_true_eq] at h
  obtain ⟨a, ha, b, ⟨hb, hne⟩, rfl⟩ := h
  exact ⟨ha, hb, hne⟩

theorem cvccvc_spec {n1 n2 : String} :
    ∀ d ∈ cvccvcDisyllables n1 n2,
      d.syl2.onset ∈ STOPS_PLUS_S ∧ d.syl1.coda ∈ SIMPLE_CODAS_PLUS_S ∧
      d.syl1.coda ≠ d.syl2.onset ∧ d.syl1.coda ≠ d.syl2.coda ∧
      d.syl1.onset ≠ d.syl2.onset ∧
      d.syl1.nucleus = n1 ∧ d.syl2.nucleus = n2 := by
  intro d hd
  simp only [cvccvcDisyllables, List.mem_flatMap, mem_ite_nil, not_or,
    List.mem_singleton] at hd
  obtain ⟨o1, ho1, c1, hc1, h11, o2, ho2, ⟨h12, h13⟩, c2, hc2, h14, rfl⟩ := hd
  exact ⟨ho2, hc1, h13, h14, h12, rfl, rfl⟩

theorem tliquidcvc_spec {n1 n2 : String} :
    ∀ d ∈ tLiquidCvcDisyllables n1 n2,
      d.syl2.onset ∈ STOPS_PLUS_S ∧ d.syl1.coda ∈ SIMPLE_CODAS_PLUS_S ∧
      d.syl1.coda ≠ d.syl2.onset ∧ d.syl1.coda ≠ d.syl2.coda ∧
      d.syl1.onset ≠ d.syl2.onset ∧
      d.syl1.nucleus = n1 ∧ d.syl2.nucleus = n2 := by
  intro d hd
  simp only [tLiquidCvcDisyllables, List.mem_flatMap, mem_ite_nil, not_or,
    List.mem_cons, List.not_mem_nil, or_false] at hd
  obtain ⟨s1, hs1, c1, hc1, h11, o2, ho2, ⟨h12, h13⟩, c2, hc2, h14,
    hd | hd⟩ := hd <;> subst hd <;>
    exact ⟨ho2, hc1, h13, h14,
      cluster_ne_single (by rcases hs1 with rfl | rfl <;> rfl) rfl
        (length_mem_STOPS_PLUS_S o2 ho2), rfl, rfl⟩

/-- Every disyllable the enumerator yields satisfies the cross-syllable
grammar: onset2 drawn from stops plus /s/, coda1 from the simple codas
plus /s/, coda1 distinct from onset2 and from coda2, onset1 distinct
from onset2, and the two nuclei an ordered pair of distinct lax vowels. -/
theorem disyllables_spec :
    ∀ d ∈ disyllables,
      d.syl2.onset ∈ STOPS_PLUS_S ∧ d.syl1.coda ∈ SIMPLE_CODAS_PLUS_S ∧
      d.syl1.coda ≠ d.syl2.onset ∧ d.syl1.coda ≠ d.syl2.coda ∧
      d.syl1.onset ≠ d.syl2.onset ∧
      d.syl1.nucleus ∈ LAX_NUCLEI ∧ d.syl2.nucleus ∈ LAX_NUCLEI ∧
      d.syl1.nucleus ≠ d.syl2.nucleus := by
  intro d hd
  simp only [disyllables, List.mem_flatMap, List.mem_append] at hd
  obtain ⟨p, hp, hd | hd⟩ := hd
  · obtain ⟨h1, h2, h3, h4, h5, h6, h7⟩ := cvccvc_spec d hd
    obtain ⟨hq1, hq2, hq3⟩ := permPairs_mem hp
    exact ⟨h1, h2, h3, h4, h5, h6 ▸ hq1, h7 ▸ hq2,
      by rw [h6, h7]; exact fun he => hq3 he.symm⟩
  · obtain ⟨h1, h2, h3, h4, h5, h6, h7⟩ := tliquidcvc_spec d hd
    obtain ⟨hq1, hq2, hq3⟩ := permPairs_mem hp
    exact ⟨h1, h2, h3, h4, h5, h6 ▸ hq1, h7 ▸ hq2,
      by rw [h6, h7]; exact fun he => hq3 he.symm⟩

/-- C8: every disyllable produced by the enumerator satisfies the
cross-syllable grammar constraints: onset2 is drawn from stops plus /s/,
coda1 differs from onset2 and from coda2, onset1 differs from onset2,
and the two nuclei are an ordered pair of two distinct lax vowels. -/
theorem C8_disyllable_grammar :
    ∀ d ∈ disyllables,
      d.syl2.onset ∈ STOPS_PLUS_S ∧
      d.syl1.coda ≠ d.syl2.onset ∧ d.syl1.coda ≠ d.syl2.coda ∧
      d.syl1.onset ≠ d.syl2.onset ∧
      d.syl1.nucleus ∈ LAX_NUCLEI ∧ d.syl2.nucleus ∈ LAX_NUCLEI ∧
      d.syl1.nucleus ≠ d.syl2.nucleus := by
  intro d hd
  obtain ⟨h1, _, h3, h4, h5, h6, h7, h8⟩ := disyllables_spec d hd
  exact ⟨h1, h3, h4, h5, h6, h7, h8⟩

/-- Witness for C8 at the first enumerated disyllable. -/
theorem C8_disyllable_grammar_witness :
    (Disyllable.mk ⟨"p", "ɪ", "m", "CVC"⟩ ⟨"t", "ʊ", "n", "CVC"⟩).syl2.onset
        ∈ STOPS_PLUS_S ∧
      ("m" : String) ≠ "t" ∧ ("m" : String) ≠ "n" ∧
      ("p" : String) ≠ "t" ∧
      ("ɪ" : String) ∈ LAX_NUCLEI ∧ ("ʊ" : String) ∈ LAX_NUCLEI ∧
      ("ɪ" : String) ≠ "ʊ" :=
  C8_disyllable_grammar ⟨⟨"p", "ɪ", "m", "CVC"⟩, ⟨"t", "ʊ", "n", "CVC"⟩⟩
    (by decide)

/-! ## C6: the syllable-contact classifier -/

/-- The classifier reads only `syl1.coda` and `syl2.onset`. -/
theorem scc_eq_of_eq {d d' : Disyllable} (h1 : d.syl1.coda = d'.syl1.coda)
    (h2 : d.syl2.onset = d'.syl2.onset) :
    d.syllable_contact_code = d'.syllable_contact_code := by
  unfold Disyllable.syllable_contact_code
  rw [h1, h2]

/-- A canonical disyllable carrying a given coda/onset contact pair. -/
def contactPair (coda onset : String) : Disyllable :=
  ⟨⟨"", "", coda, ""⟩, ⟨onset, "", "", ""⟩⟩

theorem contactPair_spec :
    ∀ coda ∈ SIMPLE_CODAS_PLUS_S, ∀ onset ∈ STOPS_PLUS_S,
      ((contactPair coda onset).syllable_contact_code).isSome = true ∧
      ((contactPair coda onset).syllable_contact_code).getD "" ∈
        (["+NPA", "-NPA", "+OVA", "-OVA"] : List String) ∧
      (coda ∈ NASAL_CODAS →
        ((contactPair coda onset).syllable_contact_code).getD "" =
          if PLACE coda = PLACE onset then "+NPA" else "-NPA") ∧
      (coda ∉ NASAL_CODAS →
        ((contactPair coda onset).syllable_contact_code).getD "" =
          if ((coda = "s" ∨ coda ∈ VOICELESS_STOPS) ↔
              (onset = "s" ∨ onset ∈ VOICELESS_STOPS))
          then "+OVA" else "-OVA") := by decide

/-- C6: for every disyllable the enumerator can produce, the
syllable-contact code is defined (no `PLACE` lookup failure), lies in
{+NPA, -NPA, +OVA, -OVA}, and is fully determined by the pair
(syl1.coda, syl2.onset): +NPA exactly when the coda is a nasal whose
place-table entry equals the onset's and -NPA for a nasal coda
otherwise; +OVA exactly when a non-nasal coda agrees with the onset on
voiceless-class membership and -OVA for a non-nasal coda otherwise. -/
theorem C6_syllable_contact_code :
    ∀ d ∈ disyllables, ∃ c,
      d.syllable_contact_code = some c ∧
      c ∈ (["+NPA", "-NPA", "+OVA", "-OVA"] : List String) ∧
      (d.syl1.coda ∈ NASAL_CODAS →
        c = if PLACE d.syl1.coda = PLACE d.syl2.onset
          then "+NPA" else "-NPA") ∧
      (d.syl1.coda ∉ NASAL_CODAS →
        c = if ((d.syl1.coda = "s" ∨ d.syl1.coda ∈ VOICELESS_STOPS) ↔
            (d.syl2.onset = "s" ∨ d.syl2.onset ∈ VOICELESS_STOPS))
          then "+OVA" else "-OVA") ∧
      (∀ d' : Disyllable, d'.syl1.coda = d.syl1.coda →
        d'.syl2.onset = d.syl2.onset →
        d'.syllable_contact_code = some c) := by
  intro d hd
  obtain ⟨ho, hc, -⟩ := disyllables_spec d hd
  have e : d.syllable_contact_code =
      (contactPair d.syl1.coda d.syl2.onset).syllable_contact_code :=
    scc_eq_of_eq rfl rfl
  obtain ⟨h1, h2, h3, h4⟩ := contactPair_spec d.syl1.coda hc d.syl2.onset ho
  obtain ⟨c, hsome⟩ := Option.isSome_iff_exists.mp h1
  rw [hsome, Option.getD_some] at h2 h3 h4
  refine ⟨c, e.trans hsome, h2, h3, h4, ?_⟩
  intro d' h1' h2'
  exact (scc_eq_of_eq h1' h2').trans (e.trans hsome)

/-- Witness for C6 at the first enumerated disyllable (a nasal coda "m"
before onset "t", whose places disagree, so the code is forced to
"-NPA"). -/
theorem C6_syllable_contact_code_witness :
    ∃ c,
      (Disyllable.mk ⟨"p", "ɪ", "m", "CVC"⟩
          ⟨"t", "ʊ", "n", "CVC"⟩).syllable_contact_code = some c ∧
      c ∈ (["+NPA", "-NPA", "+OVA", "-OVA"] : List String) ∧
      (("m" : String) ∈ NASAL_CODAS →
        c = if PLACE "m" = PLACE "t" then "+NPA" else "-NPA") ∧
      (("m" : String) ∉ NASAL_CODAS →
        c = if ((("m" : String) = "s" ∨ ("m" : String) ∈ VOICELESS_STOPS) ↔
            (("t" : String) = "s" ∨ ("t" : String) ∈ VOICELESS_STOPS))
          then "+OVA" else "-OVA") ∧
      (∀ d' : Disyllable, d'.syl1.coda = "m" → d'.syl2.onset = "t" →
        d'.syllable_contact_code = some c) :=
  C6_syllable_contact_code
    ⟨⟨"p", "ɪ", "m", "CVC"⟩, ⟨"t", "ʊ", "n", "CVC"⟩⟩ (by decide)

/-! ## C10: the second syllable of a disyllable may repeat onset as coda -/

/-- C10: the enumerator emits a disyllable whose second syllable has
equal onset and coda (here onset2 = coda2 = "t"): the onset-distinct-
from-coda exclusion of standalone monosyllables is not applied to the
second syllable. -/
theorem C10_second_syllable_onset_eq_coda :
    ∃ d ∈ disyllables, d.syl2.onset = d.syl2.coda := by
  refine ⟨⟨⟨"p", "ɪ", "m", "CVC"⟩, ⟨"t", "ʊ", "t", "CVC"⟩⟩, ?_, rfl⟩
  decide

/-! ## Characterization of the filtering loops -/

/-- The condition under which the monosyllable loop counts and logs. -/
def monoLexReject (lexicon : String → Bool) (e : Monosyllable) : Bool :=
  !borowsky_test e && lexicon e.transcription

/-- The condition under which the disyllable loop counts and logs. -/
def disyllableLexReject (lexicon : String → Bool) (e : Disyllable) : Bool :=
  !npa_test e &&
    (lexicon e.syl1.transcription || lexicon e.syl2.transcription
      || lexicon e.transcription)

theorem processMonosyllables_spec (lexicon : String → Bool) :
    ∀ entries : List Monosyllable,
      processMonosyllables lexicon entries =
        ((entries.filter (monoKeep lexicon)).map Monosyllable.line,
         (entries.filter (monoLexReject lexicon)).length,
         (entries.filter (monoLexReject lexicon)).map
           fun e => e.transcription ++ " is lexical")
  | [] => rfl
  | e :: rest => by
    have ih := processMonosyllables_spec lexicon rest
    by_cases hb : borowsky_test e
    · simp [processMonosyllables, hb, ih, monoKeep, monoLexReject,
        List.filter_cons]
    · by_cases hl : lexicon e.transcription
      · simp [processMonosyllables, hb, hl, ih, monoKeep, monoLexReject,
          List.filter_cons]
      · simp [processMonosyllables, hb, hl, ih, monoKeep, monoLexReject,
          List.filter_cons]

theorem processDisyllables_spec (lexicon : String → Bool) :
    ∀ entries : List Disyllable,
      processDisyllables lexicon entries =
        ((entries.filter (disyllableKeep lexicon)).map Disyllable.line,
         (entries.filter (disyllableLexReject lexicon)).length,
         (entries.filter (disyllableLexReject lexicon)).map
           fun e => e.transcription ++ " or subsyllable is lexical")
  | [] => rfl
  | e :: rest => by
    have ih := processDisyllables_spec lexicon rest
    by_cases hn : npa_test e
    · simp [processDisyllables, hn, ih, disyllableKeep, disyllableLexReject,
        List.filter_cons]
    · by_cases hl : (lexicon e.syl1.transcription
          || lexicon e.syl2.transcription || lexicon e.transcription)
      · simp [processDisyllables, hn, hl, ih, disyllableKeep,
          disyllableLexReject, List.filter_cons]
      · simp [processDisyllables, hn, hl, ih, disyllableKeep,
          disyllableLexReject, List.filter_cons]

theorem filter_split_length {α : Type} (p q : α → Bool) :
    ∀ l : List α,
      (l.filter fun e => p e && !q e).length +
        (l.filter fun e => p e && q e).length = (l.filter p).length
  | [] => rfl
  | a :: l => by
    have ih := filter_split_length p q l
    by_cases hp : p a
    · by_cases hq : q a <;> simp [List.filter_cons, hp, hq] <;> omega
    · simpa [List.filter_cons, hp] using ih

/-! ## C5: the lexical-collision filter -/

/-- C5: a candidate surviving the phonological check is rejected exactly
when its transcription (or, for disyllables, additionally a constituent
syllable's transcription) is in the lexicon; no emitted entry collides
with the lexicon; the filter is idempotent; and the rows `main` writes
are exactly the lines of the filtered candidates. -/
theorem C5_lexical_collision_filter (lexicon : String → Bool)
    (ms : List Monosyllable) (ds : List Disyllable) :
    (∀ m ∈ ms, borowsky_test m = false →
      (m ∉ filterMonosyllables lexicon ms ↔
        lexicon m.transcription = true)) ∧
    (∀ d ∈ ds, npa_test d = false →
      (d ∉ filterDisyllables lexicon ds ↔
        (lexicon d.syl1.transcription = true ∨
         lexicon d.syl2.transcription = true ∨
         lexicon d.transcription = true))) ∧
    (∀ m ∈ filterMonosyllables lexicon ms,
      lexicon m.transcription = false) ∧
    (∀ d ∈ filterDisyllables lexicon ds,
      lexicon d.syl1.transcription = false ∧
      lexicon d.syl2.transcription = false ∧
      lexicon d.transcription = false) ∧
    filterMonosyllables lexicon (filterMonosyllables lexicon ms) =
      filterMonosyllables lexicon ms ∧
    filterDisyllables lexicon (filterDisyllables lexicon ds) =
      filterDisyllables lexicon ds ∧
    (processMonosyllables lexicon ms).1 =
      (filterMonosyllables lexicon ms).map Monosyllable.line ∧
    (processDisyllables lexicon ds).1 =
      (filterDisyllables lexicon ds).map Disyllable.line := by
  refine ⟨?_, ?_, ?_, ?_, ?_, ?_, ?_, ?_⟩
  · intro m hm hb
    simp [filterMonosyllables, List.mem_filter, monoKeep, hm, hb]
  · intro d hd hn
    cases h1 : lexicon d.syl1.transcription <;>
      cases h2 : lexicon d.syl2.transcription <;>
        cases h3 : lexicon d.transcription <;>
          simp [filterDisyllables, List.mem_filter, disyllableKeep, hd, hn,
            h1, h2, h3]
  · intro m hm
    simp only [filterMonosyllables, List.mem_filter, monoKeep,
      Bool.and_eq_true, Bool.not_eq_true'] at hm
    exact hm.2.2
  · intro d hd
    simp only [filterDisyllables, List.mem_filter, disyllableKeep,
      Bool.and_eq_true, Bool.not_eq_true', Bool.or_eq_false_iff] at hd
    exact ⟨hd.2.2.1.1, hd.2.2.1.2, hd.2.2.2⟩
  · simp [filterMonosyllables, List.filter_filter]
  · simp [filterDisyllables, List.filter_filter]
  · rw [processMonosyllables_spec]; rfl
  · rw [processDisyllables_spec]; rfl

/-- Witness for C5: with lexicon {"pɪt"}, the candidate p-ɪ-t is
rejected even though it passes the phonological check, and the filter is
idempotent on this input. -/
theorem C5_lexical_collision_filter_witness :
    ((Monosyllable.mk "p" "ɪ" "t" "CVC") ∉
      filterMonosyllables (fun s => s == "pɪt")
        [⟨"p", "ɪ", "t", "CVC"⟩, ⟨"p", "ɪ", "m", "CVC"⟩]) ∧
    filterMonosyllables (fun s => s == "pɪt")
        (filterMonosyllables (fun s => s == "pɪt")
          [⟨"p", "ɪ", "t", "CVC"⟩, ⟨"p", "ɪ", "m", "CVC"⟩]) =
      filterMonosyllables (fun s => s == "pɪt")
        [⟨"p", "ɪ", "t", "CVC"⟩, ⟨"p", "ɪ", "m", "CVC"⟩] := by
  have h := C5_lexical_collision_filter (fun s => s == "pɪt")
    [⟨"p", "ɪ", "t", "CVC"⟩, ⟨"p", "ɪ", "m", "CVC"⟩] []
  exact ⟨(h.1 ⟨"p", "ɪ", "t", "CVC"⟩ (by decide) (by decide)).mpr (by decide),
    h.2.2.2.2.1⟩

/-! ## C9: rejection logging and counting -/

/-- Counterexample to C9: with an empty lexicon, the single candidate
p-iː-ŋ is rejected by the phonological (Borowsky) test — no row is
emitted — yet the retained `filtered` count is not 1 (the number of
candidates rejected for the file) and nothing is logged. -/
theorem C9_counterexample_phonological_rejection_uncounted :
    (processMonosyllables (fun _ => false)
      [⟨"p", "iː", "ŋ", "CVC"⟩]).1 = [] ∧
    ¬((processMonosyllables (fun _ => false)
      [⟨"p", "iː", "ŋ", "CVC"⟩]).2.1 = 1) ∧
    (processMonosyllables (fun _ => false)
      [⟨"p", "iː", "ŋ", "CVC"⟩]).2.2 = [] := by decide

/-- C9 (amended): every lexical rejection is logged (one message per
lexically rejected candidate, naming its transcription) and the retained
count equals the number of lexical rejections; phonological rejections
are skipped silently — emitted rows plus the counted lexical rejections
account exactly for the candidates passing the phonological test. -/
theorem C9_amended_rejection_accounting (lexicon : String → Bool)
    (ms : List Monosyllable) (ds : List Disyllable) :
    (processMonosyllables lexicon ms).2.1 =
      (ms.filter (monoLexReject lexicon)).length ∧
    (processMonosyllables lexicon ms).2.2 =
      (ms.filter (monoLexReject lexicon)).map
        (fun e => e.transcription ++ " is lexical") ∧
    (processDisyllables lexicon ds).2.1 =
      (ds.filter (disyllableLexReject lexicon)).length ∧
    (processDisyllables lexicon ds).2.2 =
      (ds.filter (disyllableLexReject lexicon)).map
        (fun e => e.transcription ++ " or subsyllable is lexical") ∧
    (processMonosyllables lexicon ms).1.length +
        (processMonosyllables lexicon ms).2.1 =
      (ms.filter fun e => !borowsky_test e).length ∧
    (processDisyllables lexicon ds).1.length +
        (processDisyllables lexicon ds).2.1 =
      (ds.filter fun e => !npa_test e).length := by
  rw [processMonosyllables_spec, processDisyllables_spec]
  refine ⟨rfl, rfl, rfl, rfl, ?_, ?_⟩
  · rw [List.length_map]
    exact filter_split_length (fun e => !borowsky_test e)
      (fun e => lexicon e.transcription) ms
  · rw [List.length_map]
    exact filter_split_length (fun e => !npa_test e)
      (fun e => lexicon e.syl1.transcription
        || lexicon e.syl2.transcription || lexicon e.transcription) ds

/-! ## The shuffle model is a permutation -/

theorem cons_get_eraseIdx_perm (l : List Row) (i : Nat) (hi : i < l.length) :
    (l.get ⟨i, hi⟩ :: l.eraseIdx i).Perm l := by
  rw [List.eraseIdx_eq_take_drop_succ]
  refine List.perm_middle.symm.trans ?_
  rw [List.get_eq_getElem, ← List.drop_eq_getElem_cons hi,
    List.take_append_drop]

theorem shuffleGo_perm (l : List Row) (rng : Nat) :
    ((shuffleGo rng l).1).Perm l := by
  suffices h : ∀ (n : Nat) (l : List Row) (rng : Nat), l.length = n →
      ((shuffleGo rng l).1).Perm l from h l.length l rng rfl
  intro n
  induction n using Nat.strong_induction_on with
  | _ n ih =>
  intro l rng hn
  cases n with
  | zero =>
    rw [List.length_eq_zero.mp hn]
    simp [shuffleGo]
  | succ n =>
    rw [shuffleGo]
    split
    · exact List.Perm.refl _
    · rename_i m hm
      have hi2 : (rngNext rng).1 % (m + 1) < l.length := by
        rw [hm]; exact Nat.mod_lt _ (Nat.succ_pos m)
      show (l.get ⟨(rngNext rng).1 % (m + 1), hi2⟩ ::
        (shuffleGo (rngNext rng).2
          (l.eraseIdx ((rngNext rng).1 % (m + 1)))).1).Perm l
      refine List.Perm.trans (List.Perm.cons _ ?_)
        (cons_get_eraseIdx_perm l _ hi2)
      refine ih (l.eraseIdx ((rngNext rng).1 % (m + 1))).length ?_ _ _ rfl
      rw [List.length_eraseIdx]
      split <;> omega

theorem shuffleGo_length (l : List Row) (rng : Nat) :
    ((shuffleGo rng l).1).length = l.length :=
  (shuffleGo_perm l rng).length_eq

/-! ## Chunk lemmas -/

/-- The slice `lst[size*i : size*i + size]`. -/
def chunkAt (l : List Row) (size i : Nat) : List Row :=
  (l.drop (size * i)).take size

theorem pyChunks_length (l : List Row) (size n : Nat) :
    (pyChunks l size n).length = n := by
  simp [pyChunks]

theorem pyChunks_get (l : List Row) (size n i : Nat)
    (hi : i < (pyChunks l size n).length) :
    (pyChunks l size n).get ⟨i, hi⟩ = chunkAt l size i := by
  simp [pyChunks, chunkAt]

theorem chunkAt_length {l : List Row} {size n i : Nat}
    (hn : size * n ≤ l.length) (hi : i < n) :
    (chunkAt l size i).length = size := by
  have h1 : size * i + size ≤ size * n := by
    calc size * i + size = size * (i + 1) := by ring
    _ ≤ size * n := Nat.mul_le_mul_left size hi
  simp only [chunkAt, List.length_take, List.length_drop]
  omega

theorem chunkAt_subset {l : List Row} {size i : Nat} :
    ∀ r ∈ chunkAt l size i, r ∈ l := by
  intro r hr
  exact List.drop_subset _ _ (List.take_subset _ _ hr)

theorem chunkAt_disjoint_lt {l : List Row} (hnd : l.Nodup) {size i j : Nat}
    (hij : i < j) :
    ∀ r, r ∈ chunkAt l size i → r ∈ chunkAt l size j → False := by
  intro r h1 h2
  have hsub1 : r ∈ l.take (size * i + size) := by
    rw [chunkAt, List.take_drop] at h1
    exact List.drop_subset _ _ h1
  have hsub2 : r ∈ l.drop (size * j) := List.take_subset _ _ h2
  have hle : size * i + size ≤ size * j := by
    calc size * i + size = size * (i + 1) := by ring
    _ ≤ size * j := Nat.mul_le_mul_left size hij
  exact List.disjoint_take_drop hnd hle hsub1 hsub2

theorem chunkAt_disjoint {l : List Row} (hnd : l.Nodup) {size i j : Nat}
    (hij : i ≠ j) :
    ∀ r, r ∈ chunkAt l size i → r ∈ chunkAt l size j → False := by
  intro r h1 h2
  rcases Nat.lt_or_ge i j with h | h
  · exact chunkAt_disjoint_lt hnd h r h1 h2
  · exact chunkAt_disjoint_lt hnd (Nat.lt_of_le_of_ne h fun e => hij e.symm)
      r h2 h1

/-! ## Key-discovery lemmas -/

theorem foldlKeys_mem (rows : List Row) : ∀ (acc : List String) (k : String),
    (k ∈ rows.foldl
      (fun acc r => if rowKey r ∈ acc then acc else acc ++ [rowKey r]) acc) ↔
      k ∈ acc ∨ ∃ r ∈ rows, rowKey r = k := by
  induction rows with
  | nil => intro acc k; simp
  | cons r rows ih =>
    intro acc k
    rw [List.foldl_cons, ih]
    by_cases h : rowKey r ∈ acc
    · rw [if_pos h]
      constructor
      · rintro (hk | ⟨r2, hr2, rfl⟩)
        · exact Or.inl hk
        · exact Or.inr ⟨r2, List.mem_cons_of_mem _ hr2, rfl⟩
      · rintro (hk | ⟨r2, hr2, rfl⟩)
        · exact Or.inl hk
        · rcases List.mem_cons.mp hr2 with rfl | hr2
          · exact Or.inl h
          · exact Or.inr ⟨r2, hr2, rfl⟩
    · rw [if_neg h]
      simp only [List.mem_append, List.mem_singleton]
      constructor
      · rintro ((hk | rfl) | ⟨r2, hr2, rfl⟩)
        · exact Or.inl hk
        · exact Or.inr ⟨r, List.mem_cons_self _ _, rfl⟩
        · exact Or.inr ⟨r2, List.mem_cons_of_mem _ hr2, rfl⟩
      · rintro (hk | ⟨r2, hr2, rfl⟩)
        · exact Or.inl (Or.inl hk)
        · rcases List.mem_cons.mp hr2 with rfl | hr2
          · exact Or.inl (Or.inr rfl)
          · exact Or.inr ⟨r2, hr2, rfl⟩

theorem keysIn_mem (rows : List Row) (k : String) :
    k ∈ keysIn rows ↔ ∃ r ∈ rows, rowKey r = k := by
  rw [keysIn, foldlKeys_mem]
  simp

theorem foldlKeys_nodup (rows : List Row) : ∀ acc : List String, acc.Nodup →
    (rows.foldl
      (fun acc r => if rowKey r ∈ acc then acc else acc ++ [rowKey r])
      acc).Nodup := by
  induction rows with
  | nil => intro acc h; simpa using h
  | cons r rows ih =>
    intro acc h
    rw [List.foldl_cons]
    by_cases hmem : rowKey r ∈ acc
    · rw [if_pos hmem]; exact ih acc h
    · rw [if_neg hmem]
      refine ih _ ?_
      rw [List.nodup_append]
      exact ⟨h, List.nodup_singleton _, by simpa using hmem⟩

theorem keysIn_nodup (rows : List Row) : (keysIn rows).Nodup :=
  foldlKeys_nodup rows [] List.nodup_nil

/-- The total per-list contribution of a list of keys. -/
def quotaSum (keys : List String) : Nat :=
  (keys.map fun k => (listQuota k).getD 0).sum

/-- The number of entries with composite key `k` in `l`. -/
def countKey (l : List Row) (k : String) : Nat :=
  (l.filter fun r => rowKey r = k).length

theorem countKey_append (l1 l2 : List Row) (k : String) :
    countKey (l1 ++ l2) k = countKey l1 k + countKey l2 k := by
  simp [countKey, List.filter_append]

theorem pyChunks_getElem (l : List Row) (size n i : Nat)
    (hi : i < (pyChunks l size n).length) :
    (pyChunks l size n)[i] = chunkAt l size i := by
  simp [pyChunks, chunkAt]

/-! ## The master lemma on the per-shape distribution loop -/

/-- When every declared key in `keys` has a large-enough group, the
per-shape loop succeeds and appends to each of the `N_LISTS` lists an
extension holding exactly the quota of each declared key of `keys` (and
nothing else), drawn from that key's group, with the extensions of
distinct lists disjoint whenever the input rows are distinct. -/
theorem processGroups_ok (rows : List Row) :
    ∀ (keys : List String), keys.Nodup →
      (∀ k ∈ keys, ∀ q, listQuota k = some q →
        q * N_LISTS ≤ (groupFor rows k).length) →
      ∀ (rng : Nat) (lsts : List (List Row)), lsts.length = N_LISTS →
      ∃ (lsts2 : List (List Row)) (rng2 : Nat) (exts : List (List Row)),
        processGroups rows rng lsts keys = .ok (lsts2, rng2) ∧
        lsts2.length = N_LISTS ∧
        exts.length = N_LISTS ∧
        (∀ i (hi : i < lsts.length) (hi2 : i < lsts2.length)
            (hie : i < exts.length),
          lsts2.get ⟨i, hi2⟩ = lsts.get ⟨i, hi⟩ ++ exts.get ⟨i, hie⟩) ∧
        (∀ e ∈ exts,
          e.length = quotaSum keys ∧
          (∀ k ∈ keys, ∀ q, listQuota k = some q → countKey e k = q) ∧
          (∀ r ∈ e, rowKey r ∈ keys ∧ (listQuota (rowKey r)).isSome = true ∧
            r ∈ groupFor rows (rowKey r))) ∧
        (rows.Nodup → ∀ i j (hie : i < exts.length) (hje : j < exts.length),
          i ≠ j → ∀ r,
            r ∈ exts.get ⟨i, hie⟩ → r ∈ exts.get ⟨j, hje⟩ → False) := by
  intro keys
  induction keys with
  | nil =>
    intro _ _ rng lsts hl
    refine ⟨lsts, rng, List.replicate N_LISTS [], rfl, hl,
      List.length_replicate _ _, ?_, ?_, ?_⟩
    · intro i hi hi2 hie
      rw [List.get_replicate, List.append_nil]
    · intro e he
      rw [List.eq_of_mem_replicate he]
      refine ⟨rfl, ?_, ?_⟩
      · intro k hk; exact absurd hk (List.not_mem_nil k)
      · intro r hr; exact absurd hr (List.not_mem_nil r)
    · intro _ i j hie hje hij r hri hrj
      rw [List.get_replicate] at hri
      exact absurd hri (List.not_mem_nil r)
  | cons k rest ih =>
    intro hnd hsz rng lsts hl
    have hknotin : k ∉ rest := (List.nodup_cons.mp hnd).1
    have hndrest : rest.Nodup := (List.nodup_cons.mp hnd).2
    have hszrest : ∀ k2 ∈ rest, ∀ q, listQuota k2 = some q →
        q * N_LISTS ≤ (groupFor rows k2).length :=
      fun k2 hk2 => hsz k2 (List.mem_cons_of_mem _ hk2)
    cases hq : listQuota k with
    | none =>
      obtain ⟨lsts2, rng2, exts, heq, h1, h2, h3, h4, h5⟩ :=
        ih hndrest hszrest rng lsts hl
      refine ⟨lsts2, rng2, exts, ?_, h1, h2, h3, ?_, h5⟩
      · simp only [processGroups, hq]
        exact heq
      · intro e he
        obtain ⟨e1, e2, e3⟩ := h4 e he
        refine ⟨by rw [e1]; simp [quotaSum, hq], ?_, ?_⟩
        · intro k2 hk2 q hq2
          rcases List.mem_cons.mp hk2 with rfl | hk2
          · rw [hq] at hq2; cases hq2
          · exact e2 k2 hk2 q hq2
        · intro r hr
          obtain ⟨f1, f2, f3⟩ := e3 r hr
          exact ⟨List.mem_cons_of_mem _ f1, f2, f3⟩
    | some q =>
      have hsz0 : q * N_LISTS ≤ (groupFor rows k).length :=
        hsz k (List.mem_cons_self _ _) q hq
      have hperm : ((shuffleGo rng (groupFor rows k)).1).Perm
          (groupFor rows k) := shuffleGo_perm _ rng
      have hshlen : q * N_LISTS ≤ ((shuffleGo rng (groupFor rows k)).1).length := by
        rw [hperm.length_eq]; exact hsz0
      have hl1 : (List.zipWith (· ++ ·) lsts
          (pyChunks (shuffleGo rng (groupFor rows k)).1 q N_LISTS)).length =
          N_LISTS := by
        rw [List.length_zipWith, pyChunks_length, hl, Nat.min_self]
      obtain ⟨lsts2, rng2, exts2, heq, h1, h2, h3, h4, h5⟩ :=
        ih hndrest hszrest ((shuffleGo rng (groupFor rows k)).2)
          (List.zipWith (· ++ ·) lsts
            (pyChunks (shuffleGo rng (groupFor rows k)).1 q N_LISTS)) hl1
      have hchkey : ∀ i, ∀ r ∈ chunkAt (shuffleGo rng (groupFor rows k)).1 q i,
          rowKey r = k := by
        intro i r hr
        have hrg : r ∈ groupFor rows k :=
          hperm.mem_iff.mp (chunkAt_subset r hr)
        have := (List.mem_filter.mp hrg).2
        exact of_decide_eq_true this
      have hexlen : (List.zipWith (· ++ ·)
          (pyChunks (shuffleGo rng (groupFor rows k)).1 q N_LISTS)
          exts2).length = N_LISTS := by
        rw [List.length_zipWith, pyChunks_length, h2, Nat.min_self]
      have hexget : ∀ i (hie : i < (List.zipWith (· ++ ·)
          (pyChunks (shuffleGo rng (groupFor rows k)).1 q N_LISTS)
          exts2).length) (hie2 : i < exts2.length),
          (List.zipWith (· ++ ·)
            (pyChunks (shuffleGo rng (groupFor rows k)).1 q N_LISTS)
            exts2).get ⟨i, hie⟩ =
          chunkAt (shuffleGo rng (groupFor rows k)).1 q i ++
            exts2.get ⟨i, hie2⟩ := by
        intro i hie hie2
        simp only [List.get_eq_getElem, List.getElem_zipWith]
        rw [pyChunks_getElem]
      refine ⟨lsts2, rng2,
        List.zipWith (· ++ ·)
          (pyChunks (shuffleGo rng (groupFor rows k)).1 q N_LISTS) exts2,
        ?_, h1, hexlen, ?_, ?_, ?_⟩
      · simp only [processGroups, hq]
        rw [if_neg (by omega)]
        exact heq
      · intro i hi hi2 hie
        have hie2 : i < exts2.length := by omega
        have hil1 : i < (List.zipWith (· ++ ·) lsts
            (pyChunks (shuffleGo rng (groupFor rows k)).1 q N_LISTS)).length := by
          omega
        rw [h3 i hil1 hi2 hie2, hexget i hie hie2, ← List.append_assoc]
        congr 1
        simp only [List.get_eq_getElem, List.getElem_zipWith]
        rw [pyChunks_getElem]
      · intro e he
        obtain ⟨i, hie, hegot⟩ := List.getElem_of_mem he
        have hie2 : i < exts2.length := by omega
        have hiN : i < N_LISTS := by omega
        have he2 := h4 (exts2.get ⟨i, hie2⟩) (List.get_mem _ _ _)
        have hee : e = chunkAt (shuffleGo rng (groupFor rows k)).1 q i ++
            exts2.get ⟨i, hie2⟩ := by
          rw [← hegot, ← hexget i (by omega) hie2]
          simp [List.get_eq_getElem]
        have hchlen : (chunkAt (shuffleGo rng (groupFor rows k)).1 q i).length
            = q := chunkAt_length hshlen hiN
        refine ⟨?_, ?_, ?_⟩
        · rw [hee, List.length_append, hchlen, he2.1]
          simp [quotaSum, hq]
        · intro k2 hk2 q2 hq2
          rw [hee, countKey_append]
          rcases List.mem_cons.mp hk2 with rfl | hk2
          · rw [hq] at hq2
            injection hq2 with hqe
            subst hqe
            have hcfull : countKey
                (chunkAt (shuffleGo rng (groupFor rows k2)).1 q i) k2 =
                (chunkAt (shuffleGo rng (groupFor rows k2)).1 q i).length := by
              unfold countKey
              rw [List.filter_eq_self.mpr]
              intro r hr
              exact decide_eq_true (hchkey i r hr)
            have hz : countKey (exts2.get ⟨i, hie2⟩) k2 = 0 := by
              unfold countKey
              rw [List.filter_eq_nil_iff.mpr, List.length_nil]
              intro r hr hdec
              have hk := of_decide_eq_true hdec
              have hmem := (he2.2.2 r hr).1
              rw [hk] at hmem
              exact hknotin hmem
            rw [hcfull, hz, hchlen]
            omega
          · have hne : k2 ≠ k := fun e => hknotin (e ▸ hk2)
            have hz : countKey
                (chunkAt (shuffleGo rng (groupFor rows k)).1 q i) k2 = 0 := by
              unfold countKey
              rw [List.filter_eq_nil_iff.mpr, List.length_nil]
              intro r hr hdec
              exact hne ((of_decide_eq_true hdec).symm.trans (hchkey i r hr))
            rw [hz, he2.2.1 k2 hk2 q2 hq2]
            omega
        · intro r hr
          rw [hee, List.mem_append] at hr
          rcases hr with hr | hr
          · have hk := hchkey i r hr
            refine ⟨hk ▸ List.mem_cons_self _ _, ?_, ?_⟩
            · rw [hk, hq]; rfl
            · rw [hk]
              exact hperm.mem_iff.mp (chunkAt_subset r hr)
          · obtain ⟨f1, f2, f3⟩ := he2.2.2 r hr
            exact ⟨List.mem_cons_of_mem _ f1, f2, f3⟩
      · intro hrnd i j hie hje hij r hri hrj
        have hie2 : i < exts2.length := by omega
        have hje2 : j < exts2.length := by omega
        have hshnd : ((shuffleGo rng (groupFor rows k)).1).Nodup :=
          hperm.nodup_iff.mpr (List.Nodup.filter _ hrnd)
        rw [hexget i hie hie2, List.mem_append] at hri
        rw [hexget j hje hje2, List.mem_append] at hrj
        rcases hri with hri | hri <;> rcases hrj with hrj | hrj
        · exact chunkAt_disjoint hshnd hij r hri hrj
        · have := (h4 (exts2.get ⟨j, hje2⟩) (List.get_mem _ _ _)).2.2 r hrj
          exact hknotin ((hchkey i r hri) ▸ this.1)
        · have := (h4 (exts2.get ⟨i, hie2⟩) (List.get_mem _ _ _)).2.2 r hri
          exact hknotin ((hchkey j r hrj) ▸ this.1)
        · exact h5 hrnd i j hie2 hje2 hij r hri hrj

/-! ## The final per-list shuffle pass -/

theorem shuffleEach_spec (lsts : List (List Row)) : ∀ (rng : Nat),
    ((shuffleEach rng lsts).1).length = lsts.length ∧
    ∀ i (hi : i < lsts.length) (hi2 : i < ((shuffleEach rng lsts).1).length),
      (((shuffleEach rng lsts).1).get ⟨i, hi2⟩).Perm (lsts.get ⟨i, hi⟩) := by
  induction lsts with
  | nil => intro rng; exact ⟨rfl, fun i hi => absurd hi (Nat.not_lt_zero i)⟩
  | cons l rest ih =>
    intro rng
    obtain ⟨ihlen, ihget⟩ := ih (shuffleGo rng l).2
    refine ⟨by simp [shuffleEach, ihlen], ?_⟩
    intro i hi hi2
    cases i with
    | zero => exact shuffleGo_perm l rng
    | succ i =>
      exact ihget i (Nat.lt_of_succ_lt_succ hi)
        (by simpa [shuffleEach] using Nat.lt_of_succ_lt_succ hi2)

/-! ## The quota table -/

/-- The fifteen composite keys carrying a declared quota. -/
def declaredKeys : List String :=
  ["CVC", "sCVC", "CwVC", "TɹVC", "TlVC", "NCVC", "CNVC",
   "CVC.CVC, +OVA", "CVC.CVC, +NPA", "TɹVC.CVC, +OVA", "TɹVC.CVC, +NPA",
   "CVC.CVC, -OVA", "CVC.CVC, -NPA", "TlVC.CVC, -OVA", "TlVC.CVC, -NPA"]

theorem listQuota_isSome_mem (k : String)
    (h : (listQuota k).isSome = true) : k ∈ declaredKeys := by
  unfold listQuota at h
  by_cases h1 : k = "CVC"
  · subst h1; decide
  rw [if_neg h1] at h
  by_cases h2 : k = "sCVC"
  · subst h2; decide
  rw [if_neg h2] at h
  by_cases h3 : k = "CwVC"
  · subst h3; decide
  rw [if_neg h3] at h
  by_cases h4 : k = "TɹVC"
  · subst h4; decide
  rw [if_neg h4] at h
  by_cases h5 : k = "TlVC"
  · subst h5; decide
  rw [if_neg h5] at h
  by_cases h6 : k = "NCVC"
  · subst h6; decide
  rw [if_neg h6] at h
  by_cases h7 : k = "CNVC"
  · subst h7; decide
  rw [if_neg h7] at h
  by_cases h8 : k = "CVC.CVC, +OVA"
  · subst h8; decide
  rw [if_neg h8] at h
  by_cases h9 : k = "CVC.CVC, +NPA"
  · subst h9; decide
  rw [if_neg h9] at h
  by_cases h10 : k = "TɹVC.CVC, +OVA"
  · subst h10; decide
  rw [if_neg h10] at h
  by_cases h11 : k = "TɹVC.CVC, +NPA"
  · subst h11; decide
  rw [if_neg h11] at h
  by_cases h12 : k = "CVC.CVC, -OVA"
  · subst h12; decide
  rw [if_neg h12] at h
  by_cases h13 : k = "CVC.CVC, -NPA"
  · subst h13; decide
  rw [if_neg h13] at h
  by_cases h14 : k = "TlVC.CVC, -OVA"
  · subst h14; decide
  rw [if_neg h14] at h
  by_cases h15 : k = "TlVC.CVC, -NPA"
  · subst h15; decide
  rw [if_neg h15] at h
  exact absurd h (by decide)

theorem listQuota_pos : ∀ k ∈ declaredKeys, 0 < (listQuota k).getD 0 := by
  decide

theorem declaredKeys_sum : quotaSum declaredKeys = 60 := by decide

theorem quotaSum_eq_60 {K : List String} (hnd : K.Nodup)
    (hsub : ∀ k ∈ declaredKeys, k ∈ K) : quotaSum K = 60 := by
  have h1 : quotaSum K =
      K.toFinset.sum (fun k => (listQuota k).getD 0) :=
    (List.sum_toFinset _ hnd).symm
  have h2 : declaredKeys.toFinset.sum (fun k => (listQuota k).getD 0) =
      K.toFinset.sum (fun k => (listQuota k).getD 0) := by
    refine Finset.sum_subset ?_ ?_
    · intro k hk
      rw [List.mem_toFinset] at hk ⊢
      exact hsub k hk
    · intro k _ hk
      rw [List.mem_toFinset] at hk
      cases hq : listQuota k with
      | none => rfl
      | some q =>
        exact absurd (listQuota_isSome_mem k (by rw [hq]; rfl)) hk
  have h3 : declaredKeys.toFinset.sum (fun k => (listQuota k).getD 0) =
      quotaSum declaredKeys :=
    List.sum_toFinset _ (by decide)
  rw [h1, ← h2, h3, declaredKeys_sum]

theorem quotaSum_lt_60 {K : List String} (hnd : K.Nodup) {k : String}
    (hdk : k ∈ declaredKeys) (hknot : k ∉ K) : quotaSum K < 60 := by
  have h1 : quotaSum K =
      K.toFinset.sum (fun k2 => (listQuota k2).getD 0) :=
    (List.sum_toFinset _ hnd).symm
  have h2 : (K.toFinset ∩ declaredKeys.toFinset).sum
        (fun k2 => (listQuota k2).getD 0) =
      K.toFinset.sum (fun k2 => (listQuota k2).getD 0) := by
    refine Finset.sum_subset Finset.inter_subset_left ?_
    intro x hx hxS
    have hxd : x ∉ declaredKeys := by
      intro hmem
      exact hxS (Finset.mem_inter.mpr ⟨hx, List.mem_toFinset.mpr hmem⟩)
    cases hq : listQuota x with
    | none => rfl
    | some q => exact absurd (listQuota_isSome_mem x (by rw [hq]; rfl)) hxd
  have h3 : (K.toFinset ∩ declaredKeys.toFinset).sum
        (fun k2 => (listQuota k2).getD 0) <
      declaredKeys.toFinset.sum (fun k2 => (listQuota k2).getD 0) := by
    refine Finset.sum_lt_sum_of_subset Finset.inter_subset_right
      (List.mem_toFinset.mpr hdk) ?_ (listQuota_pos k hdk) ?_
    · intro hmem
      exact hknot (List.mem_toFinset.mp (Finset.mem_inter.mp hmem).1)
    · intro j _ _
      exact Nat.zero_le _
  have h4 : declaredKeys.toFinset.sum (fun k2 => (listQuota k2).getD 0) =
      quotaSum declaredKeys :=
    List.sum_toFinset _ (by decide)
  rw [h1, ← h2]
  rw [h4, declaredKeys_sum] at h3
  exact h3

/-! ## Failure analysis of the distribution loop -/

theorem processGroups_ok_imp_big (rows : List Row) :
    ∀ (keys : List String) (rng : Nat) (lsts : List (List Row))
      (p : List (List Row) × Nat),
      processGroups rows rng lsts keys = .ok p →
      ∀ k ∈ keys, ∀ q, listQuota k = some q →
        q * N_LISTS ≤ (groupFor rows k).length := by
  intro keys
  induction keys with
  | nil =>
    intro rng lsts p h k hk
    exact absurd hk (List.not_mem_nil k)
  | cons k2 rest ih =>
    intro rng lsts p h k hk q hq
    rcases List.mem_cons.mp hk with rfl | hk
    · simp only [processGroups, hq] at h
      by_cases hlt : (groupFor rows k).length < q * N_LISTS
      · rw [if_pos hlt] at h; cases h
      · omega
    · cases hq2 : listQuota k2 with
      | none =>
        simp only [processGroups, hq2] at h
        exact ih _ _ _ h k hk q hq
      | some q2 =>
        simp only [processGroups, hq2] at h
        by_cases hlt : (groupFor rows k2).length < q2 * N_LISTS
        · rw [if_pos hlt] at h; cases h
        · rw [if_neg hlt] at h
          exact ih _ _ _ h k hk q hq

theorem groupFor_eq_nil (rows : List Row) (k : String) (h : k ∉ keysIn rows) :
    groupFor rows k = [] := by
  rw [List.eq_nil_iff_forall_not_mem]
  intro r hr
  rcases List.mem_filter.mp hr with ⟨hrr, hdec⟩
  exact h ((keysIn_mem rows k).mpr ⟨r, hrr, of_decide_eq_true hdec⟩)

/-- When every declared category's group is large enough, a run of the
partitioner succeeds, and every output list has 60 entries, exactly the
declared quota of each declared key, only rows of declared keys taken
from the input; lists are pairwise disjoint when the input rows are
distinct. -/
theorem stratify_ok_spec (seed : Nat) (rows : List Row)
    (hsz : ∀ k q, listQuota k = some q →
      q * N_LISTS ≤ (groupFor rows k).length) :
    ∃ lsts, stratify seed rows = .ok lsts ∧ lsts.length = N_LISTS ∧
      (∀ l ∈ lsts, l.length = 60 ∧
        (∀ k q, listQuota k = some q → countKey l k = q) ∧
        (∀ r ∈ l, (listQuota (rowKey r)).isSome = true ∧ r ∈ rows)) ∧
      (rows.Nodup → ∀ i j (hi : i < lsts.length) (hj : j < lsts.length),
        i ≠ j → ∀ r, r ∈ lsts.get ⟨i, hi⟩ → r ∈ lsts.get ⟨j, hj⟩ → False) := by
  have hN : N_LISTS = 16 := rfl
  have hdecl : ∀ k ∈ declaredKeys, k ∈ keysIn rows := by
    intro k hk
    have hqsome : (listQuota k).isSome = true := by
      have hpos := listQuota_pos k hk
      cases hq : listQuota k with
      | none => rw [hq] at hpos; cases hpos
      | some q => rfl
    obtain ⟨q, hq2⟩ := Option.isSome_iff_exists.mp hqsome
    have h16 := hsz k q hq2
    have hqpos : 0 < q := by
      have := listQuota_pos k hk
      rw [hq2] at this
      exact this
    rw [hN] at h16
    have hlen : 0 < (groupFor rows k).length := by omega
    obtain ⟨r, hr⟩ := List.exists_mem_of_length_pos hlen
    rcases List.mem_filter.mp hr with ⟨hrr, hdec⟩
    exact (keysIn_mem rows k).mpr ⟨r, hrr, of_decide_eq_true hdec⟩
  have hKnodup := keysIn_nodup rows
  obtain ⟨lsts2, rng2, exts, heq, h1, h2, h3, h4, h5⟩ :=
    processGroups_ok rows (keysIn rows) hKnodup
      (fun k _ q hq => hsz k q hq) seed (List.replicate N_LISTS [])
      (List.length_replicate _ _)
  have hl2get : ∀ i (hi2 : i < lsts2.length) (hie : i < exts.length),
      lsts2.get ⟨i, hi2⟩ = exts.get ⟨i, hie⟩ := by
    intro i hi2 hie
    have hi0 : i < (List.replicate N_LISTS ([] : List Row)).length := by
      rw [List.length_replicate]; omega
    rw [h3 i hi0 hi2 hie, List.get_replicate, List.nil_append]
  have hsum : quotaSum (keysIn rows) = 60 := quotaSum_eq_60 hKnodup hdecl
  obtain ⟨hslen, hsget⟩ := shuffleEach_spec lsts2 rng2
  have hperm3 : ∀ i (hi3 : i < ((shuffleEach rng2 lsts2).1).length)
      (hie : i < exts.length),
      (((shuffleEach rng2 lsts2).1).get ⟨i, hi3⟩).Perm
        (exts.get ⟨i, hie⟩) := by
    intro i hi3 hie
    have hi2 : i < lsts2.length := by omega
    have := hsget i hi2 hi3
    rwa [hl2get i hi2 hie] at this
  have hall60 : ∀ l ∈ (shuffleEach rng2 lsts2).1, l.length = 60 := by
    intro l hl
    obtain ⟨i, hi, hgot⟩ := List.getElem_of_mem hl
    have hgot2 : ((shuffleEach rng2 lsts2).1).get ⟨i, hi⟩ = l := by
      rw [List.get_eq_getElem]; exact hgot
    have hie : i < exts.length := by omega
    have hp := hperm3 i hi hie
    have hlen := (h4 _ (List.get_mem exts i hie)).1
    rw [← hgot2, hp.length_eq, hlen, hsum]
  have hfind : ((shuffleEach rng2 lsts2).1).find?
      (fun l => l.length ≠ 60) = none := by
    rw [List.find?_eq_none]
    intro x hx
    simp [hall60 x hx]
  refine ⟨(shuffleEach rng2 lsts2).1, ?_, by rw [hslen, h1], ?_, ?_⟩
  · simp only [stratify, heq]
    rw [hfind]
  · intro l hl
    obtain ⟨i, hi, hgot⟩ := List.getElem_of_mem hl
    have hgot2 : ((shuffleEach rng2 lsts2).1).get ⟨i, hi⟩ = l := by
      rw [List.get_eq_getElem]; exact hgot
    have hie : i < exts.length := by omega
    have hp : l.Perm (exts.get ⟨i, hie⟩) := by
      rw [← hgot2]
      exact hperm3 i hi hie
    have he4 := h4 _ (List.get_mem exts i hie)
    refine ⟨hall60 l hl, ?_, ?_⟩
    · intro k q hq
      have hkin : k ∈ keysIn rows :=
        hdecl k (listQuota_isSome_mem k (by rw [hq]; rfl))
      have := he4.2.1 k hkin q hq
      rw [← this]
      unfold countKey
      exact (hp.filter _).length_eq
    · intro r hr
      have hrin : r ∈ exts.get ⟨i, hie⟩ := hp.mem_iff.mp hr
      obtain ⟨-, f2, f3⟩ := he4.2.2 r hrin
      exact ⟨f2, (List.mem_filter.mp f3).1⟩
  · intro hrnd i j hi hj hij r hri hrj
    have hie : i < exts.length := by omega
    have hje : j < exts.length := by omega
    have hpi := hperm3 i hi hie
    have hpj := hperm3 j hj hje
    exact h5 hrnd i j hie hje hij r (hpi.mem_iff.mp hri)
      (hpj.mem_iff.mp hrj)

/-- A run of the partitioner succeeds exactly when every declared
category's (possibly empty) group reaches `quota * N_LISTS` entries. -/
theorem stratify_isOk_iff (seed : Nat) (rows : List Row) :
    (stratify seed rows).isOk = true ↔
      ∀ k q, listQuota k = some q →
        q * N_LISTS ≤ (groupFor rows k).length := by
  constructor
  · intro hok k q hq
    by_contra hlt
    push_neg at hlt
    cases hpg : processGroups rows seed
        (List.replicate N_LISTS []) (keysIn rows) with
    | error e =>
      simp only [stratify, hpg] at hok
      cases hok
    | ok p =>
      by_cases hkin : k ∈ keysIn rows
      · have := processGroups_ok_imp_big rows (keysIn rows) _ _ _ hpg
          k hkin q hq
        omega
      · have hszK : ∀ k2 ∈ keysIn rows, ∀ q2, listQuota k2 = some q2 →
            q2 * N_LISTS ≤ (groupFor rows k2).length :=
          fun k2 hk2 => processGroups_ok_imp_big rows (keysIn rows) _ _ _
            hpg k2 hk2
        obtain ⟨lsts2, rng2, exts, heq, h1, h2, h3, h4, h5⟩ :=
          processGroups_ok rows (keysIn rows) (keysIn_nodup rows) hszK seed
            (List.replicate N_LISTS []) (List.length_replicate _ _)
        rw [heq] at hpg
        injection hpg with hpe
        subst hpe
        have hdk : k ∈ declaredKeys :=
          listQuota_isSome_mem k (by rw [hq]; rfl)
        have hlt60 : quotaSum (keysIn rows) < 60 :=
          quotaSum_lt_60 (keysIn_nodup rows) hdk hkin
        obtain ⟨hslen, hsget⟩ := shuffleEach_spec lsts2 rng2
        have hN : (0 : Nat) < N_LISTS := by decide
        have h0l2 : 0 < lsts2.length := by omega
        have h0l3 : 0 < ((shuffleEach rng2 lsts2).1).length := by omega
        have h0e : 0 < exts.length := by omega
        have hp := hsget 0 h0l2 h0l3
        have hi0 : (0 : Nat) < (List.replicate N_LISTS ([] : List Row)).length := by
          rw [List.length_replicate]; omega
        rw [h3 0 hi0 h0l2 h0e, List.get_replicate, List.nil_append] at hp
        have hlen0 : (((shuffleEach rng2 lsts2).1).get ⟨0, h0l3⟩).length =
            quotaSum (keysIn rows) := by
          rw [hp.length_eq, (h4 _ (List.get_mem exts 0 h0e)).1]
        cases hfind : ((shuffleEach rng2 lsts2).1).find?
            (fun l => l.length ≠ 60) with
        | some l =>
          simp only [stratify, heq, hfind] at hok
          cases hok
        | none =>
          rw [List.find?_eq_none] at hfind
          have := hfind _ (List.get_mem _ 0 h0l3)
          simp only [decide_eq_true_eq, Decidable.not_not] at this
          omega
  · intro hsz
    obtain ⟨lsts, heq, -⟩ := stratify_ok_spec seed rows hsz
    rw [heq]
    rfl

/-! ## A concrete input satisfying the size precondition -/

/-- A row with the given shape and syllable-contact-code fields, made
unique by an index-dependent first column. -/
def mkRow (shape scc : String) (i : Nat) : Row :=
  ⟨String.mk (List.replicate i 'a'), "", "", "", "", "", shape, scc, ""⟩

/-- (shape, scc, quota) triples covering all fifteen declared keys. -/
def witnessSpec : List (String × String × Nat) :=
  [("CVC", "", 5), ("sCVC", "", 4), ("CwVC", "", 4), ("TɹVC", "", 2),
   ("TlVC", "", 5), ("NCVC", "", 5), ("CNVC", "", 5),
   ("CVC.CVC", "+OVA", 5), ("CVC.CVC", "+NPA", 4),
   ("TɹVC.CVC", "+OVA", 3), ("TɹVC.CVC", "+NPA", 3),
   ("CVC.CVC", "-OVA", 4), ("CVC.CVC", "-NPA", 4),
   ("TlVC.CVC", "-OVA", 4), ("TlVC.CVC", "-NPA", 3)]

/-- 960 pairwise-distinct rows: for each declared key, exactly
`quota * N_LISTS` rows carrying that key. -/
def witnessRows : List Row :=
  witnessSpec.flatMap fun s =>
    (List.range (s.2.2 * N_LISTS)).map fun i => mkRow s.1 s.2.1 i

theorem mkRow_key (shape scc : String) (i : Nat) :
    rowKey (mkRow shape scc i) =
      if scc ≠ "" then shape ++ ", " ++ scc else shape := rfl

theorem mkRow_injective (shape scc : String) :
    Function.Injective (mkRow shape scc) := by
  intro i j he
  have h1 := congrArg (fun r : Row => r.onset1.length) he
  simpa [mkRow, String.length] using h1

theorem witnessRows_nodup : witnessRows.Nodup := by
  rw [witnessRows, List.nodup_flatMap]
  constructor
  · intro s _
    exact (List.nodup_range _).map (mkRow_injective s.1 s.2.1)
  · have hpw : witnessSpec.Pairwise
        (fun x y => x.1 ≠ y.1 ∨ x.2.1 ≠ y.2.1) := by decide
    refine hpw.imp ?_
    intro x y hxy r hrx hry
    rcases List.mem_map.mp hrx with ⟨i, -, hi⟩
    rcases List.mem_map.mp hry with ⟨j, -, hj⟩
    have hs : x.1 = y.1 := by
      rw [← hi] at hj
      exact (congrArg Row.shape hj).symm
    have hc : x.2.1 = y.2.1 := by
      rw [← hi] at hj
      exact (congrArg Row.scc hj).symm
    rcases hxy with hxy | hxy
    · exact hxy hs
    · exact hxy hc

theorem group_piece_length (k : String) :
    ∀ (spec : List (String × String × Nat)),
      (groupFor (spec.flatMap fun s =>
        (List.range (s.2.2 * N_LISTS)).map fun i => mkRow s.1 s.2.1 i)
          k).length =
      ((spec.filter fun s => rowKey (mkRow s.1 s.2.1 0) = k).map
        fun s => s.2.2 * N_LISTS).sum := by
  intro spec
  induction spec with
  | nil => rfl
  | cons s rest ih =>
    rw [List.flatMap_cons]
    unfold groupFor at ih ⊢
    rw [List.filter_append, List.length_append, ih, List.filter_cons]
    by_cases h : rowKey (mkRow s.1 s.2.1 0) = k
    · rw [if_pos (decide_eq_true h), List.filter_eq_self.mpr ?_]
      · rw [List.length_map, List.length_range, List.map_cons, List.sum_cons]
      · intro r hr
        rcases List.mem_map.mp hr with ⟨i, -, rfl⟩
        exact decide_eq_true h
    · rw [if_neg (by simpa using h), List.filter_eq_nil_iff.mpr ?_]
      · rw [List.length_nil, Nat.zero_add]
      · intro r hr
        rcases List.mem_map.mp hr with ⟨i, -, rfl⟩
        simpa using h

theorem witnessRows_group (k : String) (q : Nat)
    (hq : listQuota k = some q) :
    q * N_LISTS ≤ (groupFor witnessRows k).length := by
  have hdk : k ∈ declaredKeys := listQuota_isSome_mem k (by rw [hq]; rfl)
  rw [witnessRows, group_piece_length]
  fin_cases hdk <;> simp [listQuota] at hq <;> subst hq <;> decide

/-! ## C1: quota satisfaction and total size -/

/-- C1: when every declared category's group has at least
`quota * N_LISTS` entries, the run succeeds, and each of the 16 output
lists holds exactly the declared quota of entries of every declared
composite key and exactly 60 entries in total. -/
theorem C1_quota_satisfaction (rows : List Row)
    (hsz : ∀ k q, listQuota k = some q →
      q * N_LISTS ≤ (groupFor rows k).length) :
    ∃ lsts, stratifyMain rows = .ok lsts ∧ lsts.length = N_LISTS ∧
      ∀ l ∈ lsts, l.length = 60 ∧
        ∀ k q, listQuota k = some q → countKey l k = q := by
  obtain ⟨lsts, heq, hlen, hprops, -⟩ := stratify_ok_spec SEED rows hsz
  exact ⟨lsts, heq, hlen,
    fun l hl => ⟨(hprops l hl).1, (hprops l hl).2.1⟩⟩

/-- Witness for C1 at a 960-row input providing exactly
`quota * N_LISTS` rows of every declared key. -/
theorem C1_quota_satisfaction_witness :
    (∀ k q, listQuota k = some q →
      q * N_LISTS ≤ (groupFor witnessRows k).length) ∧
    (∃ lsts, stratifyMain witnessRows = .ok lsts ∧
      lsts.length = N_LISTS ∧
      ∀ l ∈ lsts, l.length = 60 ∧
        ∀ k q, listQuota k = some q → countKey l k = q) :=
  ⟨witnessRows_group,
   C1_quota_satisfaction witnessRows witnessRows_group⟩

/-! ## C2: no entry in two output lists -/

/-- C2: in a completed run on duplicate-free input rows, no row is a
member of two different output lists (each group is cut into pairwise
disjoint contiguous quota-sized slices and leftovers are dropped, so
list extensions never share a row). -/
theorem C2_no_overlap (rows : List Row) (lsts : List (List Row))
    (hnd : rows.Nodup) (hok : stratifyMain rows = .ok lsts) :
    ∀ i j (hi : i < lsts.length) (hj : j < lsts.length), i ≠ j →
      ∀ r, r ∈ lsts.get ⟨i, hi⟩ → r ∉ lsts.get ⟨j, hj⟩ := by
  have hsz := (stratify_isOk_iff SEED rows).mp
    (by rw [stratifyMain] at hok; rw [hok]; rfl)
  obtain ⟨lsts2, heq, hlen, hprops, hdisj⟩ := stratify_ok_spec SEED rows hsz
  rw [stratifyMain] at hok
  rw [hok] at heq
  injection heq with he
  subst he
  intro i j hi hj hij r hri hrj
  exact hdisj hnd i j hi hj hij r hri hrj

/-- Witness for C2: the 960-row duplicate-free input, with the run's
actual output lists. -/
theorem C2_no_overlap_witness :
    witnessRows.Nodup ∧
    stratifyMain witnessRows =
      .ok ((stratifyMain witnessRows).toOption.getD []) ∧
    ∀ i j (hi : i < ((stratifyMain witnessRows).toOption.getD []).length)
      (hj : j < ((stratifyMain witnessRows).toOption.getD []).length),
      i ≠ j → ∀ r,
        r ∈ ((stratifyMain witnessRows).toOption.getD []).get ⟨i, hi⟩ →
        r ∉ ((stratifyMain witnessRows).toOption.getD []).get ⟨j, hj⟩ := by
  obtain ⟨lsts, heq, -⟩ := stratify_ok_spec SEED witnessRows witnessRows_group
  have hok : stratifyMain witnessRows =
      .ok ((stratifyMain witnessRows).toOption.getD []) := by
    rw [stratifyMain, heq]
    rfl
  exact ⟨witnessRows_nodup, hok,
    C2_no_overlap witnessRows _ witnessRows_nodup hok⟩

/-! ## C3: failure exactly on undersized declared groups -/

/-- C3: a run fails (one of the two assertions aborts it; an undersized
group is surfaced with its key and observed size in
`StratifyError.groupTooSmall`) precisely when some declared key's group
has fewer than `quota * N_LISTS` surviving entries, and rows whose key
has no declared quota are silently excluded from every output list
rather than reported as an error. -/
theorem C3_fail_iff_undersized (rows : List Row) :
    ((stratifyMain rows).isOk = false ↔
      ∃ k q, listQuota k = some q ∧
        (groupFor rows k).length < q * N_LISTS) ∧
    (∀ lsts, stratifyMain rows = .ok lsts →
      ∀ l ∈ lsts, ∀ r ∈ l, (listQuota (rowKey r)).isSome = true) := by
  have hiff := stratify_isOk_iff SEED rows
  constructor
  · constructor
    · intro hfail
      by_contra hno
      push_neg at hno
      have hsz : ∀ k q, listQuota k = some q →
          q * N_LISTS ≤ (groupFor rows k).length := by
        intro k q hq
        exact Nat.le_of_not_lt (by simpa using hno k q hq)
      have := hiff.mpr hsz
      rw [stratifyMain] at hfail
      rw [this] at hfail
      cases hfail
    · rintro ⟨k, q, hq, hlt⟩
      cases hok : (stratifyMain rows).isOk with
      | false => rfl
      | true =>
        have hsz := hiff.mp hok
        have := hsz k q hq
        omega
  · intro lsts hok l hl r hr
    have hsz := hiff.mp (by rw [stratifyMain] at hok; rw [hok]; rfl)
    obtain ⟨lsts2, heq, -, hprops, -⟩ := stratify_ok_spec SEED rows hsz
    rw [stratifyMain] at hok
    rw [hok] at heq
    injection heq with he
    subst he
    exact ((hprops l hl).2.2 r hr).1

/-- Witness for C3: on a single CVC row, the sCVC group is empty and the
run fails. -/
theorem C3_fail_iff_undersized_witness :
    (stratifyMain [mkRow "CVC" "" 0]).isOk = false :=
  (C3_fail_iff_undersized [mkRow "CVC" "" 0]).1.mpr
    ⟨"sCVC", 4, by decide, by decide⟩

/-! ## C4: determinism of the whole pipeline -/

/-- C4: the pipeline — grouping, per-group shuffles, round-robin chunk
assignment and final per-list shuffles, with the generator seeded once —
is modelled as a pure function of the seed and the input rows, so two
runs with the same seed (in particular the fixed seed 1568) and the same
input rows produce identical output lists. -/
theorem C4_determinism (seed1 seed2 : Nat) (rows1 rows2 : List Row)
    (hs : seed1 = seed2) (hr : rows1 = rows2) :
    stratify seed1 rows1 = stratify seed2 rows2 ∧
    stratifyMain rows1 = stratifyMain rows2 := by
  subst hs
  subst hr
  exact ⟨rfl, rfl⟩

/-- Witness for C4 at the 960-row input and the fixed seed. -/
theorem C4_determinism_witness :
    stratify SEED witnessRows = stratify SEED witnessRows ∧
    stratifyMain witnessRows = stratifyMain witnessRows :=
  C4_determinism SEED SEED witnessRows witnessRows rfl rfl

end NonceWords
